import Mathlib

/-!
Shallow embedding of the habit-entry time-series engine of
saakshiscode19/habitbloom (src/src/App.jsx): the sparse entry store and its
read paths, the streak and analytics functions, the store mutations
(upsert / delete-habit), the drag-to-edit state machine, and the calendar
axis builder.  Each definition is a direct translation of the corresponding
JavaScript function; the theorems settle the specification claims.
-/

namespace HB

/-- A day of the axis, as consumed by the analytics functions.  The source's
day objects carry further display fields (label, weekdayRow, ...); the
analytics read only `date` (a `YYYY-MM-DD` string). -/
structure Day where
  date : String
  deriving DecidableEq, Repr

/-- A habit row (`habits(id, user_id, name, created_at)`); the engine reads
only `id` and `name`.  The habit list is kept in creation order (the fetch
orders by `created_at` ascending). -/
structure Habit where
  id : Nat
  name : String
  deriving DecidableEq, Repr

/-- An entry row (`habit_entries(user_id, habit_id, date, value)`). -/
structure Entry where
  user_id : Nat
  habit_id : Nat
  date : String
  value : Bool
  deriving DecidableEq, Repr

/-- `getEntry(habitId, date)` from App.jsx: first entry of the store whose
`habit_id` and `date` match, if any. -/
def getEntry (entries : List Entry) (habitId : Nat) (date : String) : Option Entry :=
  entries.find? (fun e => e.habit_id == habitId && e.date == date)

/-- The read path `current ? !!current.value : false` used by the mouse-down
handler and the day editor: stored value, defaulting to `false` when absent. -/
def getEntryValue (entries : List Entry) (habitId : Nat) (date : String) : Bool :=
  match getEntry entries habitId date with
  | some e => e.value
  | none => false

/-- `getHabitDayRatio(habit, date)` from App.jsx: `0` when no entry is
stored, else `1` for a true entry and `0` for a false one. -/
def getHabitDayScore (entries : List Entry) (habit : Habit) (date : String) : Nat :=
  match getEntry entries habit.id date with
  | none => 0
  | some e => if e.value then 1 else 0

/-- Whether the habit counts as done on a day: the `ratio > 0` test used by
both streak loops. -/
def doneOn (entries : List Entry) (habit : Habit) (d : Day) : Bool :=
  decide (0 < getHabitDayScore entries habit d.date)

/-- The body of the backward loop of `getHabitStreak`: walking the given
day list (the axis reversed, i.e. newest first), count days with
`ratio > 0` and stop at the first other day (`break`). -/
def streakLoop (entries : List Entry) (habit : Habit) : List Day → Nat
  | [] => 0
  | d :: rest =>
    if 0 < getHabitDayScore entries habit d.date then
      streakLoop entries habit rest + 1
    else 0

/-- `getHabitStreak(habit)` from App.jsx: iterate `i = days.length - 1`
down to `0`, counting while `ratio > 0`, stopping at the first day that is
not done. -/
def getHabitStreak (entries : List Entry) (habit : Habit) (days : List Day) : Nat :=
  streakLoop entries habit days.reverse

/-- The body of the forward loop of `getHabitLongestStreak`: `maxv` is the
maximum seen, `cur` the running counter that resets on a not-done day
(`current++; if (current > max) max = current` / `current = 0`). -/
def longestLoop (entries : List Entry) (habit : Habit) :
    List Day → Nat → Nat → Nat
  | [], maxv, _ => maxv
  | d :: rest, maxv, cur =>
    if 0 < getHabitDayScore entries habit d.date then
      longestLoop entries habit rest (max maxv (cur + 1)) (cur + 1)
    else
      longestLoop entries habit rest maxv 0

/-- `getHabitLongestStreak(habit)` from App.jsx. -/
def getHabitLongestStreak (entries : List Entry) (habit : Habit) (days : List Day) : Nat :=
  longestLoop entries habit days 0 0

/-! Abstract run arithmetic on boolean sequences, used to specify the two
streak loops: `leadRun` counts the leading `true`s, `maxRun` the longest
block of consecutive `true`s. -/

/-- Length of the leading run of `true`s. -/
def leadRun : List Bool → Nat
  | [] => 0
  | b :: r => if b then leadRun r + 1 else 0

/-- Length of the longest run of consecutive `true`s: the best run starting
at each suffix. -/
def maxRun : List Bool → Nat
  | [] => 0
  | b :: r => max (leadRun (b :: r)) (maxRun r)

/-- The longest-streak loop, restated over the boolean done-pattern. -/
def longestAux : List Bool → Nat → Nat → Nat
  | [], maxv, _ => maxv
  | b :: r, maxv, cur =>
    if b then longestAux r (max maxv (cur + 1)) (cur + 1)
    else longestAux r maxv 0

/-- The best run value reachable from a suffix given that a run of `cur`
`true`s immediately precedes it. -/
def bestFrom : List Bool → Nat → Nat
  | [], _ => 0
  | b :: r, cur => if b then max (cur + 1) (bestFrom r (cur + 1)) else bestFrom r 0

/-! ### Aggregate analytics -/

/-- `overallCompletionRate` from App.jsx:
`totalPossibleCompletions = days.length * Math.max(totalHabits, 1)`,
`totalCompletions = entries.filter(e => e.value).length`, and the rate is
`Math.round((totalCompletions / totalPossibleCompletions) * 100)` when the
denominator is positive, else `0`.  For naturals `c` and `p > 0`,
`Math.round(100 * c / p)` is the round-half-up value
`(200 * c + p) / (2 * p)` in integer division. -/
def overallCompletionRate (days : List Day) (habits : List Habit)
    (entries : List Entry) : Nat :=
  let totalPossibleCompletions := days.length * max habits.length 1
  let totalCompletions := (entries.filter (fun e => e.value)).length
  if 0 < totalPossibleCompletions then
    (200 * totalCompletions + totalPossibleCompletions) / (2 * totalPossibleCompletions)
  else 0

/-- The `{ habit, streak }` pair built by the `bestHabit` computation. -/
structure RankedHabit where
  habit : Habit
  streak : Nat
  deriving DecidableEq, Repr

/-- Stable insertion into a descending-by-streak list: the element being
inserted comes later in the original array, so on equal streaks it stays
behind the already-placed element, as the stable `Array.prototype.sort`
with comparator `(a, b) => b.streak - a.streak` demands. -/
def insertRanked (x : RankedHabit) : List RankedHabit → List RankedHabit
  | [] => [x]
  | y :: ys => if y.streak ≤ x.streak then x :: y :: ys else y :: insertRanked x ys

/-- Stable descending-by-streak sort (insertion sort; the output of any
stable sort under a consistent comparator is unique, so this models the
JavaScript engine's stable sort). -/
def sortRankedDesc : List RankedHabit → List RankedHabit
  | [] => []
  | x :: xs => insertRanked x (sortRankedDesc xs)

/-- `bestHabit` from App.jsx: when the habit list is non-empty, map each
habit to `{ habit, streak: getHabitLongestStreak(h) }`, sort descending by
streak and take element `[0]`; otherwise `null`. -/
def bestHabit (days : List Day) (habits : List Habit) (entries : List Entry) :
    Option RankedHabit :=
  if 0 < habits.length then
    (sortRankedDesc (habits.map
      (fun h => ⟨h, getHabitLongestStreak entries h days⟩))).head?
  else none

/-- First maximum of a ranked list: the head element wins ties against
everything after it. -/
def pickBest : List RankedHabit → Option RankedHabit
  | [] => none
  | x :: xs =>
    match pickBest xs with
    | none => some x
    | some b => some (if b.streak ≤ x.streak then x else b)

/-! ### Store mutations -/

/-- The `setEntries` updater inside `updateEntry`: find the index of the
first entry matching `(habitId, date)`; if found, replace it by
`{ ...copy[idx], ...data }` (the server row `data` carries every field, so
the merge is `row`); otherwise append the server row. -/
def updateEntryLocal (habitId : Nat) (date : String) (row : Entry) :
    List Entry → List Entry
  | [] => [row]
  | e :: rest =>
    if e.habit_id == habitId && e.date == date then row :: rest
    else e :: updateEntryLocal habitId date row rest

/-- `updateEntry(habitId, date, value)` from App.jsx: the Supabase upsert is
awaited first; on error the failure is logged and the function returns with
the local store untouched; on success the local store is reconciled with
the server-returned row.  `remote` is the resolved result of the awaited
remote write. -/
def updateEntry (entries : List Entry) (habitId : Nat) (date : String)
    (_value : Bool) (remote : Except String Entry) : List Entry :=
  match remote with
  | .error _ => entries
  | .ok row => updateEntryLocal habitId date row entries

/-- The row a successful Supabase upsert returns for
`{ user_id, habit_id, date, value }` (the natural key plus the value). -/
def echoRow (userId habitId : Nat) (date : String) (value : Bool) : Entry :=
  ⟨userId, habitId, date, value⟩

/-- `handleDeleteHabit(id)` from App.jsx: the remote delete is awaited; on
error nothing changes locally; on success the habit is removed from the
habit list and every entry with `habit_id === id` is removed from the
store. -/
def handleDeleteHabit (habits : List Habit) (entries : List Entry) (id : Nat)
    (remote : Except String Unit) : List Habit × List Entry :=
  match remote with
  | .error _ => (habits, entries)
  | .ok _ => (habits.filter (fun h => h.id != id),
              entries.filter (fun e => e.habit_id != id))

/-- Number of store entries carrying a given `(habit, date)` key. -/
def countKey (entries : List Entry) (habitId : Nat) (date : String) : Nat :=
  (entries.filter (fun e => e.habit_id == habitId && e.date == date)).length

/-! ### The drag-to-edit state machine -/

/-- The session state the batch-edit gesture works on: the two drag flags
(`isDragging`, `dragValue`), the selected-date cursor and the entry
store. -/
structure DragState where
  isDragging : Bool
  dragValue : Option Bool
  selectedDate : String
  entries : List Entry
  deriving Repr

/-- The `onMouseDown` handler of a day cell (App.jsx): select the date,
read the cell's current value (`current ? !!current.value : false`), negate
it, enter the dragging state with that target value, and issue
`updateEntry` for the starting cell.  `remote` is the resolved remote
result of that write. -/
def onCellMouseDown (s : DragState) (habitId : Nat) (date : String)
    (remote : Except String Entry) : DragState :=
  let currentVal := getEntryValue s.entries habitId date
  let nextVal := !currentVal
  { isDragging := true
    dragValue := some nextVal
    selectedDate := date
    entries := updateEntry s.entries habitId date nextVal remote }

/-- The `onMouseEnter` handler of a day cell (App.jsx): a no-op unless a
drag is active with a target value; otherwise issue `updateEntry` with the
drag's fixed target value, whatever the cell held before. -/
def onCellMouseEnter (s : DragState) (habitId : Nat) (date : String)
    (remote : Except String Entry) : DragState :=
  match s.dragValue with
  | none => s
  | some v =>
    if s.isDragging then
      { s with entries := updateEntry s.entries habitId date v remote }
    else s

/-- The global `mouseup` listener (`handleMouseUp`): end any drag. -/
def onMouseUp (s : DragState) : DragState :=
  { s with isDragging := false, dragValue := none }

/-! ### The calendar axis builder (`getDaysFromStartOfYear`)

The source walks JavaScript `Date` objects from `new Date(year, 0, 1)` up
to `today`, stepping with `d.setDate(d.getDate() + 1)`.  We model the date
component of each produced day object by a year/month/day triple with the
Gregorian calendar rules JavaScript `Date` implements. -/

/-- Gregorian leap-year rule (as implemented by JavaScript `Date`). -/
def isLeapYear (y : Nat) : Bool :=
  (y % 4 == 0 && y % 100 != 0) || y % 400 == 0

/-- Days in month `m` (1-12) of year `y`. -/
def daysInMonth (y m : Nat) : Nat :=
  if m = 2 then (if isLeapYear y then 29 else 28)
  else if m = 4 ∨ m = 6 ∨ m = 9 ∨ m = 11 then 30
  else 31

/-- A calendar date: year, month (1-12), day of month. -/
structure YMD where
  year : Nat
  month : Nat
  day : Nat
  deriving DecidableEq, Repr

/-- A well-formed calendar date. -/
def ValidDate (d : YMD) : Prop :=
  1 ≤ d.month ∧ d.month ≤ 12 ∧ 1 ≤ d.day ∧ d.day ≤ daysInMonth d.year d.month

instance (d : YMD) : Decidable (ValidDate d) := by
  unfold ValidDate; infer_instance

/-- `d.setDate(d.getDate() + 1)`: the next calendar day, rolling over month
and year boundaries. -/
def nextDay (d : YMD) : YMD :=
  if d.day < daysInMonth d.year d.month then ⟨d.year, d.month, d.day + 1⟩
  else if d.month < 12 then ⟨d.year, d.month + 1, 1⟩
  else ⟨d.year + 1, 1, 1⟩

/-- The loop guard `d <= today`: comparison of the dates' timestamps, i.e.
lexicographic order on (year, month, day). -/
def dateLe (a b : YMD) : Bool :=
  a.year < b.year ||
    (a.year == b.year &&
      (a.month < b.month || (a.month == b.month && a.day ≤ b.day)))

/-- `new Date(today.getFullYear(), 0, 1)`: January 1 of the reference
date's year. -/
def jan1 (today : YMD) : YMD := ⟨today.year, 1, 1⟩

/-- The `for (let d = start; d <= today; d.setDate(d.getDate() + 1))` loop:
push the current day and step, with fuel bounding the iteration count (a
year has at most 366 days, so fuel 400 is never exhausted for a valid
reference date). -/
def buildAxisAux (today : YMD) : Nat → YMD → List YMD
  | 0, _ => []
  | fuel + 1, d =>
    if dateLe d today then d :: buildAxisAux today fuel (nextDay d) else []

/-- `getDaysFromStartOfYear()` from App.jsx, as the sequence of calendar
dates it produces for reference date `today`. -/
def getDaysFromStartOfYear (today : YMD) : List YMD :=
  buildAxisAux today 400 (jan1 today)

/-- Days of year `y` strictly before month `m` (for `m` in 1-13; `13`
closes the year). -/
def monthPrefixDays (y m : Nat) : Nat :=
  let leapAdj := if isLeapYear y then 1 else 0
  match m with
  | 1 => 0
  | 2 => 31
  | 3 => 59 + leapAdj
  | 4 => 90 + leapAdj
  | 5 => 120 + leapAdj
  | 6 => 151 + leapAdj
  | 7 => 181 + leapAdj
  | 8 => 212 + leapAdj
  | 9 => 243 + leapAdj
  | 10 => 273 + leapAdj
  | 11 => 304 + leapAdj
  | 12 => 334 + leapAdj
  | 13 => 365 + leapAdj
  | _ => 0

/-- Ordinal of a date within its year (Jan 1 ↦ 1). -/
def dayOfYear (d : YMD) : Nat :=
  monthPrefixDays d.year d.month + d.day

/-! ### A concrete store exhibiting done-day runs of lengths 3, 5, 2 -/

/-- A 12-day axis. -/
def exDays : List Day :=
  [⟨"d01"⟩, ⟨"d02"⟩, ⟨"d03"⟩, ⟨"d04"⟩, ⟨"d05"⟩, ⟨"d06"⟩,
   ⟨"d07"⟩, ⟨"d08"⟩, ⟨"d09"⟩, ⟨"d10"⟩, ⟨"d11"⟩, ⟨"d12"⟩]

/-- The habit the example store tracks. -/
def exHabit : Habit := ⟨1, "run"⟩

/-- Entries marking `exHabit` done on days 1-3, 5-9 and 11-12 of `exDays`:
day 4 carries an explicit `false` entry and day 10 has no entry, so the
done-day runs have lengths 3, 5 and 2 in axis order. -/
def exEntries : List Entry :=
  [⟨7, 1, "d01", true⟩, ⟨7, 1, "d02", true⟩, ⟨7, 1, "d03", true⟩,
   ⟨7, 1, "d04", false⟩,
   ⟨7, 1, "d05", true⟩, ⟨7, 1, "d06", true⟩, ⟨7, 1, "d07", true⟩,
   ⟨7, 1, "d08", true⟩, ⟨7, 1, "d09", true⟩,
   ⟨7, 1, "d11", true⟩, ⟨7, 1, "d12", true⟩]

/-! ## Helper lemmas: runs of booleans and the two streak loops -/

theorem streakLoop_eq_leadRun (e : List Entry) (h : Habit) (l : List Day) :
    streakLoop e h l = leadRun (l.map (doneOn e h)) := by
  induction l with
  | nil => rfl
  | cons d rest ih =>
    by_cases h0 : 0 < getHabitDayScore e h d.date
    · simp [streakLoop, leadRun, doneOn, h0, ih]
    · simp [streakLoop, leadRun, doneOn, h0]

theorem leadRun_takeWhile (l : List Bool) :
    leadRun l = (l.takeWhile (fun b => b)).length := by
  induction l with
  | nil => rfl
  | cons b r ih => cases b <;> simp [leadRun, List.takeWhile_cons, ih]

theorem leadRun_decomp (l : List Bool) :
    ∃ v, l = List.replicate (leadRun l) true ++ v ∧
      (v = [] ∨ v.head? = some false) := by
  induction l with
  | nil => exact ⟨[], by simp [leadRun], Or.inl rfl⟩
  | cons b r ih =>
    cases b with
    | false => exact ⟨false :: r, by simp [leadRun], Or.inr rfl⟩
    | true =>
      obtain ⟨v, hv, hd⟩ := ih
      refine ⟨v, ?_, hd⟩
      simp only [leadRun, if_pos, List.replicate_succ, List.cons_append,
        List.cons.injEq, true_and]
      exact hv

theorem leadRun_le_length (l : List Bool) : leadRun l ≤ l.length := by
  induction l with
  | nil => simp [leadRun]
  | cons b r ih =>
    cases b
    · simp [leadRun]
    · simp only [leadRun, ite_true, List.length_cons]
      omega

theorem leadRun_all_true (l : List Bool) (hall : ∀ b ∈ l, b = true) :
    leadRun l = l.length := by
  induction l with
  | nil => rfl
  | cons b r ih =>
    have hb : b = true := hall b (by simp)
    subst hb
    simp [leadRun, ih fun b hb => hall b (by simp [hb])]

theorem leadRun_replicate_append (n : Nat) (t : List Bool) :
    leadRun (List.replicate n true ++ t) = n + leadRun t := by
  induction n with
  | zero => simp
  | succ n ih => simp [List.replicate_succ, leadRun, ih]; omega

theorem longestLoop_eq_longestAux (e : List Entry) (h : Habit) (l : List Day)
    (m c : Nat) :
    longestLoop e h l m c = longestAux (l.map (doneOn e h)) m c := by
  induction l generalizing m c with
  | nil => rfl
  | cons d rest ih =>
    by_cases h0 : 0 < getHabitDayScore e h d.date
    · simp [longestLoop, longestAux, doneOn, h0, ih]
    · simp [longestLoop, longestAux, doneOn, h0, ih]

theorem longestAux_eq_bestFrom (l : List Bool) (m c : Nat) :
    longestAux l m c = max m (bestFrom l c) := by
  induction l generalizing m c with
  | nil => simp [longestAux, bestFrom]
  | cons b r ih =>
    cases b with
    | true => simp [longestAux, bestFrom, ih, Nat.max_assoc]
    | false => simp [longestAux, bestFrom, ih]

theorem leadRun_le_maxRun (l : List Bool) : leadRun l ≤ maxRun l := by
  cases l with
  | nil => simp [leadRun, maxRun]
  | cons b r => exact Nat.le_max_left _ _

theorem bestFrom_eq (l : List Bool) (c : Nat) :
    bestFrom l c =
      if 0 < leadRun l then max (c + leadRun l) (maxRun l) else maxRun l := by
  induction l generalizing c with
  | nil => simp [bestFrom, leadRun, maxRun]
  | cons b r ih =>
    cases b with
    | false =>
      have h9 := leadRun_le_maxRun r
      simp only [bestFrom, leadRun, if_neg, Bool.false_eq_true, not_false_iff,
        ite_false, maxRun, Nat.lt_irrefl, Nat.max_eq_right (Nat.zero_le _), ih]
      split_ifs with hr
      · simp only [Nat.zero_add]; exact Nat.max_eq_right h9
      · rfl
    | true =>
      have h9 := leadRun_le_maxRun r
      simp only [bestFrom, leadRun, if_pos, ite_true, maxRun, ih]
      split_ifs <;> simp only [Nat.max_def] <;> split_ifs <;> omega

theorem longest_eq_maxRun (e : List Entry) (h : Habit) (days : List Day) :
    getHabitLongestStreak e h days = maxRun (days.map (doneOn e h)) := by
  unfold getHabitLongestStreak
  rw [longestLoop_eq_longestAux, longestAux_eq_bestFrom, bestFrom_eq]
  have h9 := leadRun_le_maxRun (days.map (doneOn e h))
  split_ifs with hr
  · simp only [Nat.zero_add]
    rw [Nat.max_eq_right h9, Nat.max_eq_right (Nat.zero_le _)]
  · exact Nat.max_eq_right (Nat.zero_le _)

theorem maxRun_exists_run (l : List Bool) :
    ∃ s t, l = s ++ List.replicate (maxRun l) true ++ t := by
  induction l with
  | nil => exact ⟨[], [], by simp [maxRun]⟩
  | cons b r ih =>
    rcases Nat.le_total (leadRun (b :: r)) (maxRun r) with hle | hle
    · obtain ⟨s, t, hst⟩ := ih
      refine ⟨b :: s, t, ?_⟩
      have hm : maxRun (b :: r) = maxRun r := by
        simp only [maxRun]; exact Nat.max_eq_right hle
      rw [hm, List.cons_append, List.cons_append, ← hst]
    · obtain ⟨v, hv, _⟩ := leadRun_decomp (b :: r)
      refine ⟨[], v, ?_⟩
      have hm : maxRun (b :: r) = leadRun (b :: r) := by
        simp only [maxRun]; exact Nat.max_eq_left hle
      rw [hm, List.nil_append, ← hv]

theorem maxRun_is_max (l : List Bool) (n : Nat) :
    ∀ s t : List Bool, l = s ++ List.replicate n true ++ t → n ≤ maxRun l := by
  induction l with
  | nil =>
    intro s t hl
    have := congrArg List.length hl
    simp at this
    omega
  | cons b r ih =>
    intro s t hl
    cases s with
    | nil =>
      simp only [List.nil_append] at hl
      have h1 : leadRun (b :: r) = n + leadRun t := by
        rw [hl]; exact leadRun_replicate_append n t
      have h2 := leadRun_le_maxRun (b :: r)
      omega
    | cons a s' =>
      simp only [List.cons_append, List.cons.injEq] at hl
      have hr : n ≤ maxRun r := ih s' t hl.2
      have : maxRun r ≤ maxRun (b :: r) := Nat.le_max_right _ _
      omega

theorem maxRun_le_length (l : List Bool) : maxRun l ≤ l.length := by
  induction l with
  | nil => simp [maxRun]
  | cons b r ih =>
    have h1 := leadRun_le_length (b :: r)
    have h2 : maxRun (b :: r) = max (leadRun (b :: r)) (maxRun r) := rfl
    simp only [List.length_cons] at *
    omega

theorem maxRun_all_false (l : List Bool) (hall : ∀ b ∈ l, b = false) :
    maxRun l = 0 := by
  induction l with
  | nil => rfl
  | cons b r ih =>
    have hb : b = false := hall b (by simp)
    subst hb
    have : maxRun r = 0 := ih fun b hb => hall b (by simp [hb])
    simp [maxRun, leadRun, this]

theorem streak_eq_leadRun_reverse (entries : List Entry) (habit : Habit)
    (days : List Day) :
    getHabitStreak entries habit days =
      leadRun ((days.map (doneOn entries habit)).reverse) := by
  unfold getHabitStreak
  rw [streakLoop_eq_leadRun, List.map_reverse]

theorem streak_decomp (entries : List Entry) (habit : Habit) (days : List Day) :
    ∃ u, days.map (doneOn entries habit) =
        u ++ List.replicate (getHabitStreak entries habit days) true ∧
      (u = [] ∨ ∃ upre, u = upre ++ [false]) := by
  rw [streak_eq_leadRun_reverse]
  obtain ⟨v, hv, hd⟩ := leadRun_decomp ((days.map (doneOn entries habit)).reverse)
  refine ⟨v.reverse, ?_, ?_⟩
  · have := congrArg List.reverse hv
    rw [List.reverse_reverse, List.reverse_append, List.reverse_replicate] at this
    exact this
  · rcases hd with hnil | hhead
    · exact Or.inl (by simp [hnil])
    · cases v with
      | nil => simp at hhead
      | cons b v' =>
        simp only [List.head?_cons, Option.some.injEq] at hhead
        subst hhead
        exact Or.inr ⟨v'.reverse, List.reverse_cons false v'⟩

theorem doneOn_eq_false_of_no_entries (entries : List Entry) (habit : Habit)
    (hall : ∀ e ∈ entries, e.habit_id ≠ habit.id) (d : Day) :
    doneOn entries habit d = false := by
  have hnone : getEntry entries habit.id d.date = none := by
    unfold getEntry
    rw [List.find?_eq_none]
    intro e he hp
    simp only [Bool.and_eq_true, beq_iff_eq] at hp
    exact hall e he hp.1
  simp [doneOn, getHabitDayScore, hnone]

/-! ## Claims about the streak engine -/

/-- Claim C1: for every habit, axis and entry store, `currentStreak`
(`getHabitStreak`) scans the axis from its last day backward counting
consecutive done days and stops at the first day that is false or absent:
the done-pattern of the axis ends in exactly `getHabitStreak` `true`s,
preceded by a `false` day or by nothing; in particular the streak is `0`
when the last axis day is not done, and equals `N` when the habit is done
on all `N` axis days. -/
theorem getHabitStreak_spec (entries : List Entry) (habit : Habit)
    (days : List Day) :
    (∃ u, days.map (doneOn entries habit) =
        u ++ List.replicate (getHabitStreak entries habit days) true ∧
      (u = [] ∨ ∃ upre, u = upre ++ [false])) ∧
    (∀ dl, days.getLast? = some dl → doneOn entries habit dl = false →
      getHabitStreak entries habit days = 0) ∧
    ((∀ d ∈ days, doneOn entries habit d = true) →
      getHabitStreak entries habit days = days.length) := by
  refine ⟨streak_decomp entries habit days, ?_, ?_⟩
  · intro dl hlast hdone
    rw [streak_eq_leadRun_reverse]
    have hhead : ((days.map (doneOn entries habit)).reverse).head? = some false := by
      rw [List.head?_reverse, List.getLast?_map, hlast, Option.map_some', hdone]
    cases hrev : (days.map (doneOn entries habit)).reverse with
    | nil => rw [hrev] at hhead; simp at hhead
    | cons b rest =>
      rw [hrev] at hhead
      simp only [List.head?_cons, Option.some.injEq] at hhead
      subst hhead
      simp [leadRun]
  · intro hall
    rw [streak_eq_leadRun_reverse]
    rw [leadRun_all_true]
    · simp
    · intro b hb
      rw [List.mem_reverse, List.mem_map] at hb
      obtain ⟨d, hd, hfd⟩ := hb
      rw [← hfd]
      exact hall d hd

/-- Concrete instance of claim C1: with a one-day axis, the streak is `0`
for an empty store (last day absent) and `1` when the habit is done on the
single day. -/
theorem getHabitStreak_spec_witness :
    getHabitStreak [] ⟨1, "w"⟩ [⟨"x"⟩] = 0 ∧
    getHabitStreak [⟨7, 1, "x", true⟩] ⟨1, "w"⟩ [⟨"x"⟩] = 1 :=
  ⟨(getHabitStreak_spec [] ⟨1, "w"⟩ [⟨"x"⟩]).2.1 ⟨"x"⟩ rfl (by decide),
   (getHabitStreak_spec [⟨7, 1, "x", true⟩] ⟨1, "w"⟩ [⟨"x"⟩]).2.2 (by decide)⟩

/-- Claim C2: for every habit, axis and entry store, `longestStreak`
(`getHabitLongestStreak`) equals the maximum length of a run of consecutive
done days in axis order: a run of that length occurs in the done-pattern,
and every run of consecutive done days is no longer; a habit with no
entries gets `0`, and the concrete store with done-day runs of lengths
[3, 0, 5, 0, 2] gets `5`. -/
theorem getHabitLongestStreak_spec (entries : List Entry) (habit : Habit)
    (days : List Day) :
    (∃ s t, days.map (doneOn entries habit) =
        s ++ List.replicate (getHabitLongestStreak entries habit days) true ++ t) ∧
    (∀ n s t, days.map (doneOn entries habit) = s ++ List.replicate n true ++ t →
      n ≤ getHabitLongestStreak entries habit days) ∧
    ((∀ e ∈ entries, e.habit_id ≠ habit.id) →
      getHabitLongestStreak entries habit days = 0) ∧
    getHabitLongestStreak exEntries exHabit exDays = 5 := by
  rw [longest_eq_maxRun]
  refine ⟨maxRun_exists_run _, ?_, ?_, by decide⟩
  · intro n s t hst
    exact maxRun_is_max _ n s t hst
  · intro hall
    apply maxRun_all_false
    intro b hb
    rw [List.mem_map] at hb
    obtain ⟨d, hd, hfd⟩ := hb
    rw [← hfd]
    exact doneOn_eq_false_of_no_entries entries habit hall d

/-- Concrete instance of claim C2: in the [3, 0, 5, 0, 2] store the run of
the two final done days bounds the longest streak from below, and a store
whose only entry belongs to another habit yields streak `0`. -/
theorem getHabitLongestStreak_spec_witness :
    2 ≤ getHabitLongestStreak exEntries exHabit exDays ∧
    getHabitLongestStreak [⟨7, 2, "a", true⟩] ⟨1, "x"⟩ [⟨"a"⟩] = 0 :=
  ⟨(getHabitLongestStreak_spec exEntries exHabit exDays).2.1 2
      [true, true, true, false, true, true, true, true, true, false] []
      (by decide),
   (getHabitLongestStreak_spec [⟨7, 2, "a", true⟩] ⟨1, "x"⟩ [⟨"a"⟩]).2.2.1
      (by decide)⟩

/-- Claim C10: for every habit, axis and entry store, the current streak is
at most the longest streak, and both are at most the axis length. -/
theorem streak_le_longest_le_length (entries : List Entry) (habit : Habit)
    (days : List Day) :
    getHabitStreak entries habit days ≤ getHabitLongestStreak entries habit days ∧
    getHabitLongestStreak entries habit days ≤ days.length ∧
    getHabitStreak entries habit days ≤ days.length := by
  have hlen : (days.map (doneOn entries habit)).length = days.length :=
    List.length_map days _
  have h1 : getHabitStreak entries habit days ≤
      getHabitLongestStreak entries habit days := by
    obtain ⟨u, hu, _⟩ := streak_decomp entries habit days
    rw [longest_eq_maxRun]
    exact maxRun_is_max _ _ u [] (by rw [List.append_nil]; exact hu)
  have h2 : getHabitLongestStreak entries habit days ≤ days.length := by
    rw [longest_eq_maxRun]
    calc maxRun (days.map (doneOn entries habit))
        ≤ (days.map (doneOn entries habit)).length := maxRun_le_length _
      _ = days.length := hlen
  exact ⟨h1, h2, h1.trans h2⟩

/-! ## Helper lemmas: the local upsert -/

theorem getEntry_updateEntryLocal (l : List Entry) (habitId : Nat)
    (date : String) (row : Entry) (h1 : row.habit_id = habitId)
    (h2 : row.date = date) :
    getEntry (updateEntryLocal habitId date row l) habitId date = some row := by
  subst h1; subst h2
  induction l with
  | nil =>
    simp [updateEntryLocal, getEntry, List.find?_cons]
  | cons e rest ih =>
    by_cases hp : (e.habit_id == row.habit_id && e.date == row.date) = true
    · simp [updateEntryLocal, hp, getEntry, List.find?_cons]
    · simp only [updateEntryLocal, hp, ite_false, Bool.false_eq_true]
      simp only [getEntry, List.find?_cons, hp, Bool.false_eq_true, ite_false] at ih ⊢
      exact ih

theorem countKey_updateEntryLocal_other (l : List Entry) (habitId h : Nat)
    (date d : String) (row : Entry) (h1 : row.habit_id = habitId)
    (h2 : row.date = date) (hne : ¬(h = habitId ∧ d = date)) :
    countKey (updateEntryLocal habitId date row l) h d = countKey l h d := by
  subst h1; subst h2
  have hrow : (row.habit_id == h && row.date == d) = false := by
    rw [← Bool.not_eq_true, Bool.and_eq_true, beq_iff_eq, beq_iff_eq]
    rintro ⟨ha, hb⟩
    exact hne ⟨ha.symm, hb.symm⟩
  induction l with
  | nil =>
    simp [updateEntryLocal, countKey, List.filter_cons, hrow]
  | cons e rest ih =>
    by_cases hp : (e.habit_id == row.habit_id && e.date == row.date) = true
    · have he : (e.habit_id == h && e.date == d) = false := by
        rw [Bool.and_eq_true, beq_iff_eq, beq_iff_eq] at hp
        rw [← Bool.not_eq_true, Bool.and_eq_true, beq_iff_eq, beq_iff_eq]
        rintro ⟨ha, hb⟩
        exact hne ⟨(hp.1 ▸ ha).symm, (hp.2 ▸ hb).symm⟩
      simp [updateEntryLocal, hp, countKey, List.filter_cons, hrow, he]
    · simp only [updateEntryLocal, hp, ite_false, Bool.false_eq_true]
      simp only [countKey, List.filter_cons] at ih ⊢
      split_ifs with he
      · simp only [List.length_cons, ih]
      · exact ih

theorem countKey_updateEntryLocal_self (l : List Entry) (habitId : Nat)
    (date : String) (row : Entry) (h1 : row.habit_id = habitId)
    (h2 : row.date = date) (hc : countKey l habitId date ≤ 1) :
    countKey (updateEntryLocal habitId date row l) habitId date ≤ 1 := by
  subst h1; subst h2
  have hrow : (row.habit_id == row.habit_id && row.date == row.date) = true := by
    simp
  induction l with
  | nil =>
    simp [updateEntryLocal, countKey, List.filter_cons, hrow]
  | cons e rest ih =>
    by_cases hp : (e.habit_id == row.habit_id && e.date == row.date) = true
    · simp only [countKey, List.filter_cons, hp, ite_true, List.length_cons] at hc
      simp only [updateEntryLocal, hp, ite_true, countKey, List.filter_cons, hrow,
        List.length_cons]
      omega
    · simp only [countKey, List.filter_cons, hp, Bool.false_eq_true, ite_false] at hc
      simp only [updateEntryLocal, hp, Bool.false_eq_true, ite_false, countKey,
        List.filter_cons]
      exact ih hc

theorem updateEntryLocal_self_idem (l : List Entry) (habitId : Nat)
    (date : String) (row : Entry) (h1 : row.habit_id = habitId)
    (h2 : row.date = date) :
    updateEntryLocal habitId date row (updateEntryLocal habitId date row l) =
      updateEntryLocal habitId date row l := by
  subst h1; subst h2
  have hrow : (row.habit_id == row.habit_id && row.date == row.date) = true := by
    simp
  induction l with
  | nil => simp [updateEntryLocal, hrow]
  | cons e rest ih =>
    by_cases hp : (e.habit_id == row.habit_id && e.date == row.date) = true
    · simp [updateEntryLocal, hp, hrow]
    · simp [updateEntryLocal, hp, ih]

theorem getEntryValue_updateEntry_ok (entries : List Entry) (habitId u : Nat)
    (date : String) (v : Bool) :
    getEntryValue (updateEntry entries habitId date v
      (.ok (echoRow u habitId date v))) habitId date = v := by
  show getEntryValue (updateEntryLocal habitId date (echoRow u habitId date v)
    entries) habitId date = v
  unfold getEntryValue
  rw [getEntry_updateEntryLocal entries habitId date (echoRow u habitId date v)
    rfl rfl]
  rfl

/-! ## Claims about the remote-write path and the entry upsert -/

/-- Claim C4, counterexample: starting from an empty store, painting `true`
while the remote write fails leaves the store empty, and the subsequent
lookup yields `false` — the local store does not hold the painted value
after a failed remote write, contradicting the claim (the local update is
not optimistic: it is applied only after the remote write resolves
successfully). -/
theorem updateEntry_failure_counterexample :
    updateEntry [] 1 "2025-01-01" true (.error "network error") = [] ∧
    getEntryValue (updateEntry [] 1 "2025-01-01" true (.error "network error"))
      1 "2025-01-01" = false :=
  ⟨rfl, rfl⟩

/-- Claim C4, amended: `updateEntry` awaits the remote write before
touching the local store; when the write fails, the error is only logged
and the local store is left unchanged (so it does not hold the painted
value), and only a successful write installs the server-returned row, after
which the lookup yields the written value. -/
theorem updateEntry_remote_first (entries : List Entry) (habitId u : Nat)
    (date : String) (v : Bool) (err : String) :
    updateEntry entries habitId date v (.error err) = entries ∧
    getEntryValue (updateEntry entries habitId date v
      (.ok (echoRow u habitId date v))) habitId date = v :=
  ⟨rfl, getEntryValue_updateEntry_ok entries habitId u date v⟩

/-- Claim C9: the `setEntries` updater of `updateEntry` is idempotent —
applying it twice with the same server row leaves the store as after one
application — and it preserves the invariant that the store holds at most
one entry per `(habit, date)` key. -/
theorem updateEntryLocal_idempotent (entries : List Entry) (habitId : Nat)
    (date : String) (row : Entry) (h1 : row.habit_id = habitId)
    (h2 : row.date = date) :
    updateEntryLocal habitId date row (updateEntryLocal habitId date row entries) =
      updateEntryLocal habitId date row entries ∧
    ((∀ h d, countKey entries h d ≤ 1) →
      ∀ h d, countKey (updateEntryLocal habitId date row entries) h d ≤ 1) := by
  refine ⟨updateEntryLocal_self_idem entries habitId date row h1 h2, ?_⟩
  intro hc h d
  by_cases hk : h = habitId ∧ d = date
  · obtain ⟨rfl, rfl⟩ := hk
    exact countKey_updateEntryLocal_self entries h d row h1 h2 (hc h d)
  · rw [countKey_updateEntryLocal_other entries habitId h date d row h1 h2 hk]
    exact hc h d

/-- Concrete instance of claim C9: upserting `(habit 1, day "a", true)` into
a one-entry store for another key twice equals doing it once, and the
updated store still holds at most one entry for the upserted key. -/
theorem updateEntryLocal_idempotent_witness :
    updateEntryLocal 1 "a" ⟨7, 1, "a", true⟩
        (updateEntryLocal 1 "a" ⟨7, 1, "a", true⟩ [⟨7, 2, "b", true⟩]) =
      updateEntryLocal 1 "a" ⟨7, 1, "a", true⟩ [⟨7, 2, "b", true⟩] ∧
    countKey (updateEntryLocal 1 "a" ⟨7, 1, "a", true⟩ [⟨7, 2, "b", true⟩])
      1 "a" ≤ 1 :=
  ⟨(updateEntryLocal_idempotent [⟨7, 2, "b", true⟩] 1 "a" ⟨7, 1, "a", true⟩
      rfl rfl).1,
   (updateEntryLocal_idempotent [⟨7, 2, "b", true⟩] 1 "a" ⟨7, 1, "a", true⟩
      rfl rfl).2 (fun _ _ => List.length_filter_le _ _) 1 "a"⟩

/-! ## Claims about habit deletion -/

/-- Claim C8: after a successful delete of habit `id`, no entry keyed by
`id` remains in the store, every lookup for `(id, date)` returns the
default not-done value (`false`, ratio `0`), and the entries of other
habits and the other habits of the habit list are untouched. -/
theorem handleDeleteHabit_spec (habits : List Habit) (entries : List Entry)
    (id : Nat) :
    (∀ d, getEntryValue (handleDeleteHabit habits entries id (.ok ())).2 id d
      = false) ∧
    (∀ name d, getHabitDayScore (handleDeleteHabit habits entries id (.ok ())).2
      ⟨id, name⟩ d = 0) ∧
    (∀ e ∈ (handleDeleteHabit habits entries id (.ok ())).2, e.habit_id ≠ id) ∧
    (∀ e, e.habit_id ≠ id →
      (e ∈ (handleDeleteHabit habits entries id (.ok ())).2 ↔ e ∈ entries)) ∧
    (∀ h, h.id ≠ id →
      (h ∈ (handleDeleteHabit habits entries id (.ok ())).1 ↔ h ∈ habits)) := by
  have hmem : ∀ e ∈ (handleDeleteHabit habits entries id (.ok ())).2,
      e.habit_id ≠ id := by
    intro e he
    simp only [handleDeleteHabit, List.mem_filter, bne_iff_ne, ne_eq] at he
    exact he.2
  have hnone : ∀ d, getEntry (handleDeleteHabit habits entries id (.ok ())).2 id d
      = none := by
    intro d
    unfold getEntry
    rw [List.find?_eq_none]
    intro e he hp
    rw [Bool.and_eq_true, beq_iff_eq, beq_iff_eq] at hp
    exact hmem e he hp.1
  refine ⟨?_, ?_, hmem, ?_, ?_⟩
  · intro d
    unfold getEntryValue
    rw [hnone d]
  · intro name d
    unfold getHabitDayScore
    rw [hnone d]
  · intro e hne
    simp only [handleDeleteHabit, List.mem_filter, bne_iff_ne, ne_eq]
    exact ⟨fun h => h.1, fun h => ⟨h, hne⟩⟩
  · intro h hne
    simp only [handleDeleteHabit, List.mem_filter, bne_iff_ne, ne_eq]
    exact ⟨fun hh => hh.1, fun hh => ⟨hh, hne⟩⟩

/-- Concrete instance of claim C8: deleting habit 1 from a two-habit,
two-entry session makes the `(1, "a")` lookup `false` while habit 2's entry
survives. -/
theorem handleDeleteHabit_spec_witness :
    getEntryValue
      (handleDeleteHabit [⟨1, "x"⟩, ⟨2, "y"⟩]
        [⟨7, 1, "a", true⟩, ⟨7, 2, "a", true⟩] 1 (.ok ())).2 1 "a" = false ∧
    (⟨7, 2, "a", true⟩ : Entry) ∈
      (handleDeleteHabit [⟨1, "x"⟩, ⟨2, "y"⟩]
        [⟨7, 1, "a", true⟩, ⟨7, 2, "a", true⟩] 1 (.ok ())).2 :=
  ⟨(handleDeleteHabit_spec [⟨1, "x"⟩, ⟨2, "y"⟩]
      [⟨7, 1, "a", true⟩, ⟨7, 2, "a", true⟩] 1).1 "a",
   ((handleDeleteHabit_spec [⟨1, "x"⟩, ⟨2, "y"⟩]
      [⟨7, 1, "a", true⟩, ⟨7, 2, "a", true⟩] 1).2.2.2.1
      ⟨7, 2, "a", true⟩ (by decide)).mpr (by decide)⟩

/-! ## Claims about the batch-edit state machine -/

/-- Claim C3: a pointer-down on a day cell whose current value is `v`
starts a drag whose target value is `!v`, upserts `!v` to that starting
cell and moves the selected date to it; while the drag is active, a
pointer-enter on any day cell upserts the fixed target value to that cell
whatever it held before, leaving the drag state unchanged.  (The store
effect is shown for a successful remote write returning the echoed row;
the failure path is the subject of claim C4.) -/
theorem dragMachine_spec :
    (∀ (s : DragState) (habitId u : Nat) (date : String),
      let v := getEntryValue s.entries habitId date
      let s' := onCellMouseDown s habitId date (.ok (echoRow u habitId date (!v)))
      s'.isDragging = true ∧ s'.dragValue = some (!v) ∧ s'.selectedDate = date ∧
      getEntryValue s'.entries habitId date = !v) ∧
    (∀ (s : DragState) (habitId u : Nat) (date : String) (tv : Bool),
      s.isDragging = true → s.dragValue = some tv →
      let s' := onCellMouseEnter s habitId date (.ok (echoRow u habitId date tv))
      getEntryValue s'.entries habitId date = tv ∧
      s'.isDragging = true ∧ s'.dragValue = some tv) := by
  constructor
  · intro s habitId u date
    refine ⟨rfl, rfl, rfl, ?_⟩
    exact getEntryValue_updateEntry_ok s.entries habitId u date _
  · intro s habitId u date tv hdrag hval
    refine ⟨?_, ?_, ?_⟩
    · simp only [onCellMouseEnter, hval, hdrag, ite_true]
      exact getEntryValue_updateEntry_ok s.entries habitId u date tv
    · simp [onCellMouseEnter, hval, hdrag]
    · simp [onCellMouseEnter, hval, hdrag]

/-- Concrete instance of claim C3: pressing on a not-done cell starts a
drag painting `true`, and entering a cell that currently holds `false`
while dragging `true` repaints it to `true`. -/
theorem dragMachine_spec_witness :
    (onCellMouseDown ⟨false, none, "d0", []⟩ 1 "d1"
      (.ok (echoRow 7 1 "d1" true))).dragValue = some true ∧
    getEntryValue (onCellMouseEnter ⟨true, some true, "d9", [⟨7, 1, "d2", false⟩]⟩
      1 "d2" (.ok (echoRow 7 1 "d2" true))).entries 1 "d2" = true :=
  ⟨(dragMachine_spec.1 ⟨false, none, "d0", []⟩ 1 7 "d1").2.1,
   (dragMachine_spec.2 ⟨true, some true, "d9", [⟨7, 1, "d2", false⟩]⟩
      1 7 "d2" true rfl rfl).1⟩

/-! ## Claims about the aggregate analytics -/

/-- Claim C6, counterexample: with a one-day axis, zero habits and a store
still holding one true entry, `overallCompletionRate` is `100`, not `0`:
with zero habits the divisor is `|axis| * 1` and the numerator counts every
true entry of the store, so the rate is `0` only when no true entries
remain. -/
theorem overallCompletionRate_counterexample :
    overallCompletionRate [⟨"d"⟩] [] [⟨7, 1, "d", true⟩] = 100 ∧
    overallCompletionRate [⟨"d"⟩] [] [⟨7, 1, "d", true⟩] ≠ 0 := by
  refine ⟨by decide, by decide⟩

/-- Claim C6, amended: `overallCompletionRate` equals the number of true
entries divided by `|axis| * max(|habits|, 1)` rounded to a whole
percentage; it never divides by zero (an empty axis yields `0` through the
guard), it returns `0` whenever the store holds no true entries — in
particular with zero habits and no true entries — and with zero habits the
divisor is `|axis|`, so the rate is the rounded percentage of true entries
over the axis length. -/
theorem overallCompletionRate_amended (days : List Day) (habits : List Habit)
    (entries : List Entry) :
    ((entries.filter fun e => e.value) = [] →
      overallCompletionRate days habits entries = 0) ∧
    (days = [] → overallCompletionRate days habits entries = 0) ∧
    (0 < days.length →
      overallCompletionRate days [] entries =
        (200 * (entries.filter fun e => e.value).length + days.length) /
          (2 * days.length)) := by
  refine ⟨?_, ?_, ?_⟩
  · intro hT
    unfold overallCompletionRate
    rw [hT]
    simp only [List.length_nil, Nat.mul_zero, Nat.add_zero, Nat.zero_add]
    split_ifs with hp
    · exact Nat.div_eq_of_lt (by omega)
    · rfl
  · intro hd
    subst hd
    simp [overallCompletionRate]
  · intro hd
    unfold overallCompletionRate
    simp only [List.length_nil, Nat.max_eq_right (by omega : (0 : Nat) ≤ 1),
      Nat.mul_one]
    rw [if_pos hd]

/-- Concrete instances of claim C6 (amended): a store with a single false
entry yields rate `0` even with zero habits, and with zero habits the rate
of one true entry over a two-day axis is `round(100 / 2) = 50`. -/
theorem overallCompletionRate_amended_witness :
    overallCompletionRate [⟨"d"⟩] [] [⟨7, 1, "d", false⟩] = 0 ∧
    overallCompletionRate [⟨"a"⟩, ⟨"b"⟩] [] [⟨7, 1, "a", true⟩] =
      (200 * 1 + 2) / (2 * 2) :=
  ⟨(overallCompletionRate_amended [⟨"d"⟩] [] [⟨7, 1, "d", false⟩]).1 (by decide),
   (overallCompletionRate_amended [⟨"a"⟩, ⟨"b"⟩] [] [⟨7, 1, "a", true⟩]).2.2
     (by decide)⟩

/-! ## Helper lemmas: the stable descending sort behind bestHabit -/

theorem head?_insertRanked (x : RankedHabit) (l : List RankedHabit) :
    (insertRanked x l).head? =
      some (match l.head? with
            | none => x
            | some y => if y.streak ≤ x.streak then x else y) := by
  cases l with
  | nil => rfl
  | cons y ys =>
    simp only [insertRanked, List.head?_cons]
    split_ifs <;> rfl

theorem head?_sortRankedDesc (l : List RankedHabit) :
    (sortRankedDesc l).head? = pickBest l := by
  induction l with
  | nil => rfl
  | cons x xs ih =>
    simp only [sortRankedDesc, pickBest, head?_insertRanked, ih]
    cases pickBest xs <;> rfl

theorem pickBest_cons (x : RankedHabit) (xs : List RankedHabit) :
    pickBest (x :: xs) =
      match pickBest xs with
      | none => some x
      | some b => some (if b.streak ≤ x.streak then x else b) := rfl

theorem pickBest_spec (s : Habit → Nat) (habits : List Habit)
    (hne : habits ≠ []) :
    ∃ pre b post, habits = pre ++ b :: post ∧
      pickBest (habits.map fun h => ⟨h, s h⟩) = some ⟨b, s b⟩ ∧
      (∀ h ∈ habits, s h ≤ s b) ∧
      (∀ h ∈ pre, s h < s b) := by
  induction habits with
  | nil => exact absurd rfl hne
  | cons x xs ih =>
    cases xs with
    | nil =>
      refine ⟨[], x, [], rfl, rfl, ?_, by simp⟩
      intro h hh
      simp only [List.mem_singleton] at hh
      subst hh
      exact Nat.le_refl _
    | cons y ys =>
      obtain ⟨pre', b', post', hdec, hpick, hmax, hpre⟩ :=
        ih (List.cons_ne_nil y ys)
      by_cases hc : s b' ≤ s x
      · refine ⟨[], x, y :: ys, rfl, ?_, ?_, by simp⟩
        · rw [List.map_cons, pickBest_cons, hpick]
          show some (if s b' ≤ s x then (⟨x, s x⟩ : RankedHabit) else ⟨b', s b'⟩)
            = some ⟨x, s x⟩
          rw [if_pos hc]
        · intro h hh
          rcases List.mem_cons.mp hh with rfl | hmem
          · exact Nat.le_refl _
          · exact (hmax h hmem).trans hc
      · refine ⟨x :: pre', b', post', by rw [hdec]; rfl, ?_, ?_, ?_⟩
        · rw [List.map_cons, pickBest_cons, hpick]
          show some (if s b' ≤ s x then (⟨x, s x⟩ : RankedHabit) else ⟨b', s b'⟩)
            = some ⟨b', s b'⟩
          rw [if_neg hc]
        · intro h hh
          rcases List.mem_cons.mp hh with rfl | hmem
          · omega
          · exact hmax h hmem
        · intro h hh
          rcases List.mem_cons.mp hh with rfl | hmem
          · omega
          · exact hpre h hmem

/-- Claim C7: `bestHabit` returns `null` for an empty habit list; for a
non-empty list it returns (paired with its streak) a habit whose
`longestStreak` is maximal and such that every habit strictly earlier in
creation order has a strictly smaller `longestStreak` — i.e. ties are won
by the first habit in creation order. -/
theorem bestHabit_spec (days : List Day) (habits : List Habit)
    (entries : List Entry) :
    (habits = [] → bestHabit days habits entries = none) ∧
    (habits ≠ [] → ∃ pre b post, habits = pre ++ b :: post ∧
      bestHabit days habits entries =
        some ⟨b, getHabitLongestStreak entries b days⟩ ∧
      (∀ h ∈ habits, getHabitLongestStreak entries h days ≤
        getHabitLongestStreak entries b days) ∧
      (∀ h ∈ pre, getHabitLongestStreak entries h days <
        getHabitLongestStreak entries b days)) := by
  constructor
  · intro hnil
    subst hnil
    rfl
  · intro hne
    obtain ⟨pre, b, post, hdec, hpick, hmax, hpre⟩ :=
      pickBest_spec (fun h => getHabitLongestStreak entries h days) habits hne
    refine ⟨pre, b, post, hdec, ?_, hmax, hpre⟩
    unfold bestHabit
    rw [if_pos (by cases habits with
      | nil => exact absurd rfl hne
      | cons _ _ => simp), head?_sortRankedDesc]
    exact hpick

/-- Concrete instance of claim C7: a singleton habit list yields that habit
as the best one. -/
theorem bestHabit_spec_witness :
    ∃ pre b post, ([⟨1, "one"⟩] : List Habit) = pre ++ b :: post ∧
      bestHabit [] [⟨1, "one"⟩] [] =
        some ⟨b, getHabitLongestStreak [] b []⟩ ∧
      (∀ h ∈ ([⟨1, "one"⟩] : List Habit), getHabitLongestStreak [] h [] ≤
        getHabitLongestStreak [] b []) ∧
      (∀ h ∈ pre, getHabitLongestStreak [] h [] <
        getHabitLongestStreak [] b []) :=
  (bestHabit_spec [] [⟨1, "one"⟩] []).2 (by simp)

/-! ## Helper lemmas: calendar arithmetic for the axis builder -/

theorem daysInMonth_pos (y m : Nat) : 1 ≤ daysInMonth y m := by
  unfold daysInMonth
  split_ifs <;> omega

theorem monthPrefixDays_succ (y m : Nat) (h1 : 1 ≤ m) (h2 : m ≤ 12) :
    monthPrefixDays y m + daysInMonth y m = monthPrefixDays y (m + 1) := by
  interval_cases m <;> cases hL : isLeapYear y <;>
    (simp [monthPrefixDays, daysInMonth, hL]; try omega)

theorem monthPrefixDays_mono (y m1 : Nat) (h1 : 1 ≤ m1) :
    ∀ m2, m1 ≤ m2 → m2 ≤ 13 → monthPrefixDays y m1 ≤ monthPrefixDays y m2 := by
  intro m2 hm
  induction m2, hm using Nat.le_induction with
  | base => intro _; exact Nat.le_refl _
  | succ n hn ih =>
    intro h2
    have hle : monthPrefixDays y n ≤ monthPrefixDays y (n + 1) := by
      rw [← monthPrefixDays_succ y n (by omega) (by omega)]
      omega
    exact (ih (by omega)).trans hle

theorem dayOfYear_pos (d : YMD) (h : ValidDate d) : 1 ≤ dayOfYear d := by
  have := h.2.2.1
  unfold dayOfYear
  omega

theorem dayOfYear_le_max (d : YMD) (h : ValidDate d) :
    dayOfYear d ≤ monthPrefixDays d.year 13 := by
  obtain ⟨h1, h2, h3, h4⟩ := h
  have hs := monthPrefixDays_succ d.year d.month h1 h2
  have hm := monthPrefixDays_mono d.year (d.month + 1) (by omega) 13
    (by omega) (by omega)
  unfold dayOfYear
  omega

theorem monthPrefixDays_13_le (y : Nat) : monthPrefixDays y 13 ≤ 366 := by
  cases hL : isLeapYear y <;> simp [monthPrefixDays, hL]

theorem dayOfYear_lt_of_month_lt (a b : YMD) (ha : ValidDate a)
    (hb : ValidDate b) (hy : a.year = b.year) (hm : a.month < b.month) :
    dayOfYear a < dayOfYear b := by
  have h1 : monthPrefixDays a.year a.month + a.day ≤
      monthPrefixDays a.year (a.month + 1) := by
    rw [← monthPrefixDays_succ a.year a.month ha.1 ha.2.1]
    have := ha.2.2.2
    omega
  have h2 : monthPrefixDays a.year (a.month + 1) ≤
      monthPrefixDays a.year b.month :=
    monthPrefixDays_mono a.year (a.month + 1) (by omega) b.month (by omega)
      (by have := hb.2.1; omega)
  have h3 := hb.2.2.1
  unfold dayOfYear
  rw [hy] at h1 h2 ⊢
  omega

theorem dateLe_iff (a b : YMD) (ha : ValidDate a) (hb : ValidDate b)
    (hy : a.year = b.year) :
    dateLe a b = true ↔ dayOfYear a ≤ dayOfYear b := by
  constructor
  · intro hle
    have hdisj : a.month < b.month ∨ (a.month = b.month ∧ a.day ≤ b.day) := by
      unfold dateLe at hle
      rw [hy] at hle
      simpa using hle
    rcases hdisj with hm | ⟨hm, hdd⟩
    · exact (dayOfYear_lt_of_month_lt a b ha hb hy hm).le
    · unfold dayOfYear
      rw [hy, hm]
      omega
  · intro hle
    have hdisj : a.month < b.month ∨ (a.month = b.month ∧ a.day ≤ b.day) := by
      rcases Nat.lt_trichotomy a.month b.month with hm | hm | hm
      · exact Or.inl hm
      · refine Or.inr ⟨hm, ?_⟩
        unfold dayOfYear at hle
        rw [hy, hm] at hle
        omega
      · exfalso
        have := dayOfYear_lt_of_month_lt b a hb ha hy.symm hm
        omega
    unfold dateLe
    rw [hy]
    simpa using hdisj

theorem dayOfYear_inj (a b : YMD) (ha : ValidDate a) (hb : ValidDate b)
    (hy : a.year = b.year) (hd : dayOfYear a = dayOfYear b) : a = b := by
  rcases Nat.lt_trichotomy a.month b.month with hm | hm | hm
  · exact absurd hd
      (by have := dayOfYear_lt_of_month_lt a b ha hb hy hm; omega)
  · have hday : a.day = b.day := by
      unfold dayOfYear at hd
      rw [hy, hm] at hd
      omega
    cases a
    cases b
    simp_all
  · exact absurd hd
      (by have := dayOfYear_lt_of_month_lt b a hb ha hy.symm hm; omega)

theorem nextDay_valid (d : YMD) (h : ValidDate d) : ValidDate (nextDay d) := by
  obtain ⟨h1, h2, h3, h4⟩ := h
  unfold nextDay
  split_ifs with c1 c2
  · exact ⟨h1, h2,
      show 1 ≤ d.day + 1 by omega,
      show d.day + 1 ≤ daysInMonth d.year d.month by omega⟩
  · exact ⟨show 1 ≤ d.month + 1 by omega,
      show d.month + 1 ≤ 12 by omega,
      Nat.le_refl 1,
      daysInMonth_pos d.year (d.month + 1)⟩
  · exact ⟨Nat.le_refl 1,
      show (1 : Nat) ≤ 12 by omega,
      Nat.le_refl 1,
      daysInMonth_pos (d.year + 1) 1⟩

theorem nextDay_year_cases (d : YMD) (hd : ValidDate d) :
    (nextDay d).year = d.year ∨
    (d.month = 12 ∧ d.day = daysInMonth d.year 12 ∧
      (nextDay d).year = d.year + 1) := by
  unfold nextDay
  split_ifs with c1 c2
  · exact Or.inl rfl
  · exact Or.inl rfl
  · refine Or.inr ⟨?_, ?_, rfl⟩
    · have := hd.2.1
      omega
    · have hm : d.month = 12 := by have := hd.2.1; omega
      have := hd.2.2.2
      rw [← hm]
      omega

theorem dayOfYear_nextDay (d : YMD) (h : ValidDate d)
    (hy : (nextDay d).year = d.year) :
    dayOfYear (nextDay d) = dayOfYear d + 1 := by
  obtain ⟨h1, h2, h3, h4⟩ := h
  unfold nextDay at hy ⊢
  split_ifs at hy ⊢ with c1 c2
  · simp [dayOfYear]
    omega
  · have hday : d.day = daysInMonth d.year d.month := by omega
    have hsucc := monthPrefixDays_succ d.year d.month h1 h2
    simp only [dayOfYear]
    omega
  · exact absurd (show d.year + 1 = d.year from hy) (by omega)

theorem dateLe_false_of_year_lt (a b : YMD) (h : b.year < a.year) :
    dateLe a b = false := by
  rw [Bool.eq_false_iff]
  intro hT
  unfold dateLe at hT
  simp only [Bool.or_eq_true, Bool.and_eq_true, decide_eq_true_eq,
    beq_iff_eq] at hT
  rcases hT with h1 | ⟨h1, -⟩ <;> omega

theorem dateLe_nextDay_self (d : YMD) (hd : ValidDate d) :
    dateLe (nextDay d) d = false := by
  rcases nextDay_year_cases d hd with hny | ⟨_, _, hny⟩
  · have hstep := dayOfYear_nextDay d hd hny
    have hnv := nextDay_valid d hd
    cases hb : dateLe (nextDay d) d with
    | false => rfl
    | true =>
      exfalso
      have := (dateLe_iff (nextDay d) d hnv hd hny).mp hb
      omega
  · exact dateLe_false_of_year_lt _ _ (by omega)

theorem buildAxisAux_nil (today x : YMD) (hx : dateLe x today = false)
    (fuel : Nat) : buildAxisAux today fuel x = [] := by
  cases fuel with
  | zero => rfl
  | succ f => simp [buildAxisAux, hx]

theorem buildAxisAux_spec (today : YMD) (htoday : ValidDate today)
    (fuel : Nat) :
    ∀ d, ValidDate d → d.year = today.year → dateLe d today = true →
      dayOfYear today + 1 ≤ fuel + dayOfYear d →
      (buildAxisAux today fuel d).head? = some d ∧
      (buildAxisAux today fuel d).getLast? = some today ∧
      List.Chain' (fun a b => b = nextDay a ∧ b.year = a.year ∧
        dayOfYear b = dayOfYear a + 1) (buildAxisAux today fuel d) := by
  induction fuel with
  | zero =>
    intro d hd hy hle hf
    exfalso
    have := (dateLe_iff d today hd htoday hy).mp hle
    omega
  | succ fuel ih =>
    intro d hd hy hle hf
    have hax : buildAxisAux today (fuel + 1) d =
        d :: buildAxisAux today fuel (nextDay d) := by
      simp [buildAxisAux, hle]
    by_cases heq : dayOfYear d = dayOfYear today
    · have hdd : d = today := dayOfYear_inj d today hd htoday hy heq
      subst hdd
      rw [hax, buildAxisAux_nil d (nextDay d) (dateLe_nextDay_self d hd) fuel]
      exact ⟨rfl, rfl, List.chain'_singleton _⟩
    · have hlt : dayOfYear d < dayOfYear today := by
        have := (dateLe_iff d today hd htoday hy).mp hle
        omega
      rcases nextDay_year_cases d hd with hny | ⟨hm12, hd31, _⟩
      · have hstep := dayOfYear_nextDay d hd hny
        have hnv := nextDay_valid d hd
        have hny' : (nextDay d).year = today.year := by rw [hny, hy]
        have hnle : dateLe (nextDay d) today = true := by
          rw [dateLe_iff (nextDay d) today hnv htoday hny']
          omega
        obtain ⟨hhead, hlast, hchain⟩ := ih (nextDay d) hnv hny' hnle (by omega)
        rw [hax]
        cases hrl : buildAxisAux today fuel (nextDay d) with
        | nil =>
          rw [hrl] at hhead
          exact absurd hhead (by simp)
        | cons b rest =>
          rw [hrl] at hhead hlast hchain
          have hb : b = nextDay d := by simpa using hhead
          subst hb
          refine ⟨rfl, ?_, ?_⟩
          · rw [List.getLast?_cons_cons]
            exact hlast
          · exact List.chain'_cons.mpr ⟨⟨rfl, hny, hstep⟩, hchain⟩
      · exfalso
        have hmaxd : dayOfYear d = monthPrefixDays d.year 13 := by
          unfold dayOfYear
          rw [hm12, hd31]
          exact monthPrefixDays_succ d.year 12 (by omega) (by omega)
        have hmax : dayOfYear today ≤ monthPrefixDays today.year 13 :=
          dayOfYear_le_max today htoday
        rw [hy] at hmaxd
        omega

/-- Claim C5: for every valid reference date `D`, the generated day axis is
non-empty, starts at January 1 of `D`'s year, ends at `D` itself, and every
consecutive pair of axis elements is one calendar-day step apart (the
second is `nextDay` of the first, stays in the same year, and its ordinal
day of year is one larger).  Determinism holds because the builder is a
pure function of `D`. -/
theorem getDaysFromStartOfYear_spec (D : YMD) (h : ValidDate D) :
    getDaysFromStartOfYear D ≠ [] ∧
    (getDaysFromStartOfYear D).head? = some ⟨D.year, 1, 1⟩ ∧
    (getDaysFromStartOfYear D).getLast? = some D ∧
    List.Chain' (fun a b => b = nextDay a ∧ b.year = a.year ∧
      dayOfYear b = dayOfYear a + 1) (getDaysFromStartOfYear D) := by
  have hj : ValidDate (jan1 D) :=
    ⟨Nat.le_refl 1, show (1 : Nat) ≤ 12 by omega, Nat.le_refl 1,
      daysInMonth_pos D.year 1⟩
  have hy : (jan1 D).year = D.year := rfl
  have hdoyj : dayOfYear (jan1 D) = 1 := by
    simp [dayOfYear, jan1, monthPrefixDays]
  have hpos : 1 ≤ dayOfYear D := dayOfYear_pos D h
  have hle : dateLe (jan1 D) D = true := by
    rw [dateLe_iff (jan1 D) D hj h hy, hdoyj]
    omega
  have hbound : dayOfYear D ≤ monthPrefixDays D.year 13 := dayOfYear_le_max D h
  have hbound2 := monthPrefixDays_13_le D.year
  obtain ⟨hhead, hlast, hchain⟩ :=
    buildAxisAux_spec D h 400 (jan1 D) hj hy hle (by rw [hdoyj]; omega)
  refine ⟨?_, hhead, hlast, hchain⟩
  intro h0
  have h0' : buildAxisAux D 400 (jan1 D) = [] := h0
  rw [h0'] at hhead
  exact absurd hhead (by simp)

/-- Concrete instance of claim C5: the axis for reference date
2025-03-09. -/
theorem getDaysFromStartOfYear_spec_witness :
    getDaysFromStartOfYear ⟨2025, 3, 9⟩ ≠ [] ∧
    (getDaysFromStartOfYear ⟨2025, 3, 9⟩).head? = some ⟨2025, 1, 1⟩ ∧
    (getDaysFromStartOfYear ⟨2025, 3, 9⟩).getLast? = some ⟨2025, 3, 9⟩ ∧
    List.Chain' (fun a b => b = nextDay a ∧ b.year = a.year ∧
      dayOfYear b = dayOfYear a + 1) (getDaysFromStartOfYear ⟨2025, 3, 9⟩) :=
  getDaysFromStartOfYear_spec ⟨2025, 3, 9⟩ (by decide)

end HB
